import Mathlib

/-!
Verification of the `random_access_unicode` crate (src/src/lib.rs).

The crate exposes a `MappedFile` structure holding a memory-mapped byte
buffer (`map`) and a cache `line_ending_positions : Vec<CharPosition>` of
byte-offset/char-index checkpoints.  One public query `unicode_at(index)`
resolves a 0-based character index to the character value, either through
the cache (`find_with_cache` / `get_unicode_char_in_line`) or by scanning
forward from the last checkpoint (`find_nth_in_str`), recording a new
checkpoint after every line feed encountered.

Shallow embedding conventions:
* bytes and Unicode scalar values are `Nat` (a line feed is `10`);
* the mapped buffer is a `List Nat` of bytes;
* `usize` arithmetic that can overflow is modelled with explicit
  wraparound modulo `2 ^ 64` (`wrapAdd`, `wrapSub`), matching release-mode
  Rust semantics; interior accumulators (`byte_position`, `char_index`)
  stay plain `Nat`, which agrees with `usize` for any buffer shorter than
  `2 ^ 64` bytes;
* `std::str::from_utf8` is modelled by `utf8From`, returning
  `Except Nat (List Nat)` where the error value is the `Utf8Error`
  diagnostic `valid_up_to` (bytes valid before the first invalid
  sequence);
* a Rust panic (the `.unwrap()` in `find_nth_in_str`) is modelled by
  `none` in an outer `Option`: `unicode_at` returns
  `Option (Except IndexError Nat × MappedFile)`, where `none` means the
  call aborted by panic and `some (r, s')` means it returned `r` leaving
  the structure in state `s'`.
-/

set_option maxRecDepth 100000

/-- Size of the `usize` value space on a 64-bit target. -/
def USIZE : Nat := 2 ^ 64

/-- Wrapping `usize` addition (release-mode Rust overflow semantics). -/
def wrapAdd (a b : Nat) : Nat := (a + b) % USIZE

/-- Wrapping `usize` subtraction (release-mode Rust overflow semantics),
for operands below `USIZE`. -/
def wrapSub (a b : Nat) : Nat := if b ≤ a then a - b else USIZE - (b - a)

/-- Rust `char::len_utf8` for a Unicode scalar value. -/
def lenUtf8 (c : Nat) : Nat :=
  if c < 0x80 then 1 else if c < 0x800 then 2 else if c < 0x10000 then 3 else 4

/-- Total UTF-8 byte length of a list of scalar values. -/
def utf8Len (cs : List Nat) : Nat := cs.foldr (fun c a => lenUtf8 c + a) 0

/-- Prepend a decoded scalar `c` (which consumed `k` bytes) to the result of
decoding the remaining bytes, shifting the `valid_up_to` diagnostic of an
error by `k`. -/
def consChar (c k : Nat) : Except Nat (List Nat) → Except Nat (List Nat)
  | .ok cs => .ok (c :: cs)
  | .error e => .error (k + e)

/-- Allowed range of the second byte of a three-byte UTF-8 sequence,
depending on the lead byte (excludes overlong forms and surrogates). -/
def cond3 (b0 b1 : Nat) : Prop :=
  (b0 = 224 ∧ 160 ≤ b1 ∧ b1 < 192) ∨
  (b0 = 237 ∧ 128 ≤ b1 ∧ b1 < 160) ∨
  (b0 ≠ 224 ∧ b0 ≠ 237 ∧ 128 ≤ b1 ∧ b1 < 192)

instance (b0 b1 : Nat) : Decidable (cond3 b0 b1) := by
  unfold cond3; infer_instance

/-- Allowed range of the second byte of a four-byte UTF-8 sequence,
depending on the lead byte (excludes overlong forms and values above
`0x10FFFF`). -/
def cond4 (b0 b1 : Nat) : Prop :=
  (b0 = 240 ∧ 144 ≤ b1 ∧ b1 < 192) ∨
  (b0 = 244 ∧ 128 ≤ b1 ∧ b1 < 144) ∨
  (b0 ≠ 240 ∧ b0 ≠ 244 ∧ 128 ≤ b1 ∧ b1 < 192)

instance (b0 b1 : Nat) : Decidable (cond4 b0 b1) := by
  unfold cond4; infer_instance

/-- Model of `std::str::from_utf8`: decode a byte list into the list of
Unicode scalar values, or report the number of valid bytes before the
first invalid sequence (`Utf8Error::valid_up_to`). -/
def utf8From : List Nat → Except Nat (List Nat)
  | [] => .ok []
  | b0 :: rest =>
    if b0 < 128 then consChar b0 1 (utf8From rest)
    else if b0 < 194 then .error 0
    else if b0 ≤ 223 then
      match rest with
      | [] => .error 0
      | b1 :: r =>
        if 128 ≤ b1 ∧ b1 < 192 then
          consChar ((b0 - 192) * 64 + (b1 - 128)) 2 (utf8From r)
        else .error 0
    else if b0 ≤ 239 then
      match rest with
      | [] => .error 0
      | b1 :: r =>
        if cond3 b0 b1 then
          match r with
          | [] => .error 0
          | b2 :: r2 =>
            if 128 ≤ b2 ∧ b2 < 192 then
              consChar ((b0 - 224) * 4096 + (b1 - 128) * 64 + (b2 - 128)) 3 (utf8From r2)
            else .error 0
        else .error 0
    else if b0 ≤ 244 then
      match rest with
      | [] => .error 0
      | b1 :: r =>
        if cond4 b0 b1 then
          match r with
          | [] => .error 0
          | b2 :: r2 =>
            if 128 ≤ b2 ∧ b2 < 192 then
              match r2 with
              | [] => .error 0
              | b3 :: r3 =>
                if 128 ≤ b3 ∧ b3 < 192 then
                  consChar
                    ((b0 - 240) * 262144 + (b1 - 128) * 4096 + (b2 - 128) * 64 + (b3 - 128))
                    4 (utf8From r3)
                else .error 0
            else .error 0
        else .error 0
    else .error 0

instance {α β : Type} [DecidableEq α] [DecidableEq β] : DecidableEq (Except α β) :=
  fun a b =>
    match a, b with
    | .ok x, .ok y => decidable_of_iff (x = y) (by simp)
    | .error x, .error y => decidable_of_iff (x = y) (by simp)
    | .ok _, .error _ => isFalse (by simp)
    | .error _, .ok _ => isFalse (by simp)

/-- The position of a character in a file as both a character index and a
byte index of the start of the character (struct `CharPosition`). -/
structure CharPosition where
  byte_position : Nat
  char_position : Nat
deriving DecidableEq, Repr

/-- A memory mapped file (struct `MappedFile`): the mapped byte buffer and
the cache of line ending positions.  The `File` handle plays no role in
the query logic and is omitted. -/
structure MappedFile where
  map : List Nat
  line_ending_positions : List CharPosition
deriving DecidableEq, Repr

/-- Query errors of `unicode_at` (enum `IndexError`); `InvalidChar` carries
the `Utf8Error` diagnostic, modelled by its `valid_up_to` value. -/
inductive IndexError where
  | OutOfBounds : IndexError
  | InvalidChar : Nat → IndexError
deriving DecidableEq, Repr

/-- `MappedFile::new`: maps the file and initialises the cache with the
single sentinel checkpoint `(byte_position 0, char_position 0)`. -/
def MappedFile.new (bytes : List Nat) : MappedFile :=
  { map := bytes
    line_ending_positions := [{ byte_position := 0, char_position := 0 }] }

/-- `MappedFile::get_unicode_char_in_line`: slice `&self.map[byte_position..
next_line_byte_position]`, decode it as UTF-8 (error becomes
`InvalidChar`), and take the character at `index` within the line
(`chars().nth(index)`), `OutOfBounds` if absent. -/
def MappedFile.get_unicode_char_in_line (self : MappedFile)
    (byte_position index next_line_byte_position : Nat) : Except IndexError Nat :=
  match utf8From ((self.map.drop byte_position).take (next_line_byte_position - byte_position)) with
  | .error e => .error (.InvalidChar e)
  | .ok temp_str =>
    match temp_str[index]? with
    | some c => .ok c
    | none => .error .OutOfBounds

/-- Loop of `MappedFile::find_with_cache` over
`line_ending_positions.windows(2)`: on the first adjacent pair `(last,
current)` with `last.char_position < index ≤ current.char_position`,
return the bracketed line lookup (`Err` collapses to `none`); otherwise
keep scanning. -/
def fwcGo (self : MappedFile) (index : Nat) : List CharPosition → Option Nat
  | last :: current :: rest =>
    if last.char_position < index ∧ index ≤ current.char_position then
      match self.get_unicode_char_in_line last.byte_position
          (index - last.char_position) current.byte_position with
      | .ok c => some c
      | .error _ => none
    else fwcGo self index (current :: rest)
  | _ => none

/-- `MappedFile::find_with_cache`. -/
def MappedFile.find_with_cache (self : MappedFile) (index : Nat) : Option Nat :=
  fwcGo self index self.line_ending_positions

/-- Loop body of `MappedFile::find_nth_in_str` over
`str.chars().enumerate()`: advance `byte_position` by the encoded length
of the character, append a checkpoint after every line feed, and return
the character whose enumeration index equals `n`. -/
def fnGo (n start_char : Nat) :
    List Nat → Nat → Nat → List CharPosition → Option Nat × List CharPosition
  | [], _, _, acc => (none, acc)
  | c :: cs, char_index, byte_position, acc =>
    let bp := byte_position + lenUtf8 c
    let acc' := if c = 10 then
        acc ++ [{ byte_position := bp, char_position := char_index + start_char }]
      else acc
    if char_index = n then (some c, acc')
    else fnGo n start_char cs (char_index + 1) bp acc'

/-- `MappedFile::find_nth_in_str`: decode the tail of the buffer from
`start.byte_position` — the Rust code calls `.unwrap()` on this decode, so
a decode failure is a panic, modelled by `none` — then walk the characters
with `fnGo`. -/
def MappedFile.find_nth_in_str (self : MappedFile) (n : Nat) (start : CharPosition) :
    Option (Option Nat × MappedFile) :=
  match utf8From (self.map.drop start.byte_position) with
  | .error _ => none
  | .ok str =>
    let r := fnGo n start.char_position str 0 start.byte_position self.line_ending_positions
    some (r.1, { map := self.map, line_ending_positions := r.2 })

/-- `MappedFile::unicode_at`: increment the index (wrapping `usize`
addition), try the cache, otherwise scan from the last checkpoint.  The
outer `Option` is `none` exactly when the call panics inside
`find_nth_in_str`. -/
def MappedFile.unicode_at (self : MappedFile) (index : Nat) :
    Option (Except IndexError Nat × MappedFile) :=
  let index := wrapAdd index 1
  match self.find_with_cache index with
  | some c => some (.ok c, self)
  | none =>
    match self.line_ending_positions.getLast? with
    | some current =>
      match self.find_nth_in_str (wrapSub index current.char_position) current with
      | some (some c, s') => some (.ok c, s')
      | some (none, s') => some (.error .OutOfBounds, s')
      | none => none
    | none => some (.error .OutOfBounds, self)

/-- States reachable from `MappedFile::new` by completed `unicode_at`
calls (a panicking call does not produce a state). -/
inductive Reachable (bytes : List Nat) : MappedFile → Prop
  | init : Reachable bytes (MappedFile.new bytes)
  | step {s : MappedFile} {i : Nat} {r : Except IndexError Nat} {s' : MappedFile} :
      Reachable bytes s → s.unicode_at i = some (r, s') → Reachable bytes s'

/-- The byte contents of the test file of tests/read.rs:
the ASCII codes of the thirteen characters of the hello-world text. -/
def helloBytes : List Nat := [72, 101, 108, 108, 111, 10, 119, 111, 114, 108, 100, 33, 10]

/-- Well-formedness of a single checkpoint with respect to the decoded
character list `cs` of the buffer: its byte offset is the encoded length
of some prefix of `k` characters, and its char index is at most `k`. -/
def CPinv (cs : List Nat) (cp : CharPosition) : Prop :=
  ∃ k, k ≤ cs.length ∧ cp.byte_position = utf8Len (cs.take k) ∧ cp.char_position ≤ k

/-- Invariant of reachable states over a valid-UTF-8 buffer `bytes` that
decodes to `cs`: the buffer is unchanged, the checkpoint list is nonempty,
and every checkpoint is well formed. -/
def InvV (bytes cs : List Nat) (s : MappedFile) : Prop :=
  s.map = bytes ∧ s.line_ending_positions ≠ [] ∧
  ∀ cp ∈ s.line_ending_positions, CPinv cs cp

/-- Invariant of reachable states over an arbitrary buffer: the buffer is
unchanged, the checkpoint list is nonempty, its byte offsets are strictly
increasing, and they never exceed the buffer length. -/
def Inv8 (bytes : List Nat) (s : MappedFile) : Prop :=
  s.map = bytes ∧ s.line_ending_positions ≠ [] ∧
  List.Chain' (fun a b => a.byte_position < b.byte_position) s.line_ending_positions ∧
  ∀ cp ∈ s.line_ending_positions, cp.byte_position ≤ bytes.length

/-! ## Helper lemmas about UTF-8 decoding -/

lemma consChar_ok_iff (a k : Nat) (r : Except Nat (List Nat)) (l : List Nat) :
    consChar a k r = .ok l ↔ ∃ tl, r = .ok tl ∧ l = a :: tl := by
  cases r <;> simp [consChar, eq_comm]

lemma consChar_ne_ok_nil (a k : Nat) (r : Except Nat (List Nat)) :
    consChar a k r ≠ .ok [] := by
  cases r <;> simp [consChar]

lemma lenUtf8_eq_one {v : Nat} (h : v < 128) : lenUtf8 v = 1 := by
  unfold lenUtf8; rw [if_pos (by omega)]

lemma lenUtf8_eq_two {v : Nat} (h1 : 128 ≤ v) (h2 : v < 2048) : lenUtf8 v = 2 := by
  unfold lenUtf8; rw [if_neg (by omega), if_pos (by omega)]

lemma lenUtf8_eq_three {v : Nat} (h1 : 2048 ≤ v) (h2 : v < 65536) : lenUtf8 v = 3 := by
  unfold lenUtf8; rw [if_neg (by omega), if_neg (by omega), if_pos (by omega)]

lemma lenUtf8_eq_four {v : Nat} (h1 : 65536 ≤ v) : lenUtf8 v = 4 := by
  unfold lenUtf8; rw [if_neg (by omega), if_neg (by omega), if_neg (by omega)]

/-- A successful decode of a nonempty character list: the first character
occupies exactly its `lenUtf8` leading bytes, and the remaining bytes
decode to the remaining characters. -/
lemma utf8From_ok_cons {bs : List Nat} {c : Nat} {cs : List Nat}
    (h : utf8From bs = .ok (c :: cs)) :
    lenUtf8 c ≤ bs.length ∧ utf8From (bs.drop (lenUtf8 c)) = .ok cs := by
  cases bs with
  | nil => simp [utf8From] at h
  | cons b0 rest =>
    rw [utf8From.eq_def] at h
    dsimp only at h
    split at h
    · -- one byte
      next h1 =>
      obtain ⟨tl, hr, hl⟩ := (consChar_ok_iff _ _ _ _).mp h
      injection hl with hc htl
      subst hc; subst htl
      rw [lenUtf8_eq_one h1]
      exact ⟨by simp, by simpa using hr⟩
    · split at h
      · simp at h
      · split at h
        · split at h
          · simp at h
          · next b1 r =>
            split at h
            · next hb1 =>
              obtain ⟨tl, hr, hl⟩ := (consChar_ok_iff _ _ _ _).mp h
              injection hl with hc htl
              subst hc; subst htl
              rw [lenUtf8_eq_two (by omega) (by omega)]
              exact ⟨by simp, by simpa using hr⟩
            · simp at h
        · split at h
          · split at h
            · simp at h
            · next b1 r =>
              split at h
              · next hc3 =>
                split at h
                · simp at h
                · next b2 r2 =>
                  split at h
                  · next hb2 =>
                    obtain ⟨tl, hr, hl⟩ := (consChar_ok_iff _ _ _ _).mp h
                    injection hl with hc htl
                    subst hc; subst htl
                    have hv : 2048 ≤ (b0 - 224) * 4096 + (b1 - 128) * 64 + (b2 - 128) ∧
                        (b0 - 224) * 4096 + (b1 - 128) * 64 + (b2 - 128) < 65536 := by
                      have hcond : (b0 = 224 ∧ 160 ≤ b1 ∧ b1 < 192) ∨
                          (b0 = 237 ∧ 128 ≤ b1 ∧ b1 < 160) ∨
                          (b0 ≠ 224 ∧ b0 ≠ 237 ∧ 128 ≤ b1 ∧ b1 < 192) := hc3
                      rcases hcond with ⟨hb, hr1, hr2⟩ | ⟨hb, hr1, hr2⟩ | ⟨hbn, hbn2, hr1, hr2⟩ <;>
                        omega
                    rw [lenUtf8_eq_three hv.1 hv.2]
                    exact ⟨by simp, by simpa using hr⟩
                  · simp at h
              · simp at h
          · split at h
            · split at h
              · simp at h
              · next b1 r =>
                split at h
                · next hc4 =>
                  split at h
                  · simp at h
                  · next b2 r2 =>
                    split at h
                    · next hb2 =>
                      split at h
                      · simp at h
                      · next b3 r3 =>
                        split at h
                        · next hb3 =>
                          obtain ⟨tl, hr, hl⟩ := (consChar_ok_iff _ _ _ _).mp h
                          injection hl with hc htl
                          subst hc; subst htl
                          have hv : 65536 ≤ (b0 - 240) * 262144 + (b1 - 128) * 4096 +
                              (b2 - 128) * 64 + (b3 - 128) := by
                            have hcond : (b0 = 240 ∧ 144 ≤ b1 ∧ b1 < 192) ∨
                                (b0 = 244 ∧ 128 ≤ b1 ∧ b1 < 144) ∨
                                (b0 ≠ 240 ∧ b0 ≠ 244 ∧ 128 ≤ b1 ∧ b1 < 192) := hc4
                            rcases hcond with ⟨hb, hr1, hr2⟩ | ⟨hb, hr1, hr2⟩ | ⟨hbn, hbn2, hr1, hr2⟩ <;>
                              omega
                          rw [lenUtf8_eq_four hv]
                          exact ⟨by simp, by simpa using hr⟩
                        · simp at h
                    · simp at h
                · simp at h
            · simp at h

/-- A decode producing the empty character list consumed no bytes. -/
lemma utf8From_ok_nil {bs : List Nat} (h : utf8From bs = .ok []) : bs = [] := by
  cases bs with
  | nil => rfl
  | cons b0 rest =>
    rw [utf8From.eq_def] at h
    dsimp only at h
    split at h
    · exact absurd h (consChar_ne_ok_nil _ _ _)
    · split at h
      · simp at h
      · split at h
        · split at h
          · simp at h
          · next b1 r =>
            split at h
            · exact absurd h (consChar_ne_ok_nil _ _ _)
            · simp at h
        · split at h
          · split at h
            · simp at h
            · next b1 r =>
              split at h
              · next hc3 =>
                split at h
                · simp at h
                · next b2 r2 =>
                  split at h
                  · exact absurd h (consChar_ne_ok_nil _ _ _)
                  · simp at h
              · simp at h
          · split at h
            · split at h
              · simp at h
              · next b1 r =>
                split at h
                · next hc4 =>
                  split at h
                  · simp at h
                  · next b2 r2 =>
                    split at h
                    · next hb2 =>
                      split at h
                      · simp at h
                      · next b3 r3 =>
                        split at h
                        · exact absurd h (consChar_ne_ok_nil _ _ _)
                        · simp at h
                    · simp at h
                · simp at h
            · simp at h

/-- Byte accounting: a successfully decoded character list re-encodes to
exactly the length of the input. -/
lemma utf8From_length : ∀ {cs bs : List Nat}, utf8From bs = .ok cs → utf8Len cs = bs.length := by
  intro cs
  induction cs with
  | nil =>
    intro bs h
    rw [utf8From_ok_nil h]
    rfl
  | cons c cs ih =>
    intro bs h
    obtain ⟨hle, hrest⟩ := utf8From_ok_cons h
    have := ih hrest
    rw [List.length_drop] at this
    show lenUtf8 c + utf8Len cs = bs.length
    omega

/-- Boundary lemma: dropping the encoded length of the first `k` decoded
characters decodes to the remaining characters. -/
lemma utf8From_drop (k : Nat) : ∀ {bs cs : List Nat}, utf8From bs = .ok cs →
    utf8From (bs.drop (utf8Len (cs.take k))) = .ok (cs.drop k) := by
  induction k with
  | zero => intro bs cs h; simpa [utf8Len]
  | succ k ih =>
    intro bs cs h
    cases cs with
    | nil => simpa [utf8Len]
    | cons c cs =>
      obtain ⟨hle, hrest⟩ := utf8From_ok_cons h
      have hstep := ih hrest
      rw [List.take_succ_cons, List.drop_succ_cons]
      show utf8From (bs.drop (lenUtf8 c + utf8Len (cs.take k))) = .ok (cs.drop k)
      rw [List.drop_drop] at hstep
      exact hstep

/-! ## Helper lemmas about the loops -/

/-- The checkpoint accumulator of `fnGo` only ever grows by appending: the
initial accumulator is a prefix of the final one. -/
lemma fnGo_extends (n c0 : Nat) :
    ∀ (tail : List Nat) (j bp : Nat) (acc : List CharPosition),
      acc <+: (fnGo n c0 tail j bp acc).2 := by
  intro tail
  induction tail with
  | nil => intro j bp acc; exact List.prefix_rfl
  | cons c cs ih =>
    intro j bp acc
    simp only [fnGo]
    by_cases h10 : c = 10 <;> by_cases hj : j = n <;>
      simp only [if_pos, if_neg, h10, hj, ite_true, ite_false]
    · exact List.prefix_append _ _
    · exact (List.prefix_append _ _).trans (ih _ _ _)
    · exact List.prefix_rfl
    · exact ih _ _ _

/-- Unfolding of a completed `find_nth_in_str` call: the tail decode
succeeded and the result is given by the `fnGo` loop. -/
lemma find_nth_in_str_some {s : MappedFile} {n : Nat} {start : CharPosition}
    {res : Option Nat} {s' : MappedFile}
    (h : s.find_nth_in_str n start = some (res, s')) :
    ∃ str, utf8From (s.map.drop start.byte_position) = .ok str ∧
      res = (fnGo n start.char_position str 0 start.byte_position s.line_ending_positions).1 ∧
      s' = { map := s.map,
             line_ending_positions :=
               (fnGo n start.char_position str 0 start.byte_position s.line_ending_positions).2 } := by
  unfold MappedFile.find_nth_in_str at h
  split at h
  · exact absurd h (by simp)
  · next str heq =>
    refine ⟨str, heq, ?_, ?_⟩ <;>
      simp only [Option.some.injEq, Prod.mk.injEq] at h
    · exact h.1.symm
    · exact h.2.symm

/-- Any completed `unicode_at` call preserves the mapped buffer and only
appends to the checkpoint list. -/
lemma unicode_at_state {s : MappedFile} {i : Nat} {r : Except IndexError Nat}
    {s' : MappedFile} (h : s.unicode_at i = some (r, s')) :
    s'.map = s.map ∧ s.line_ending_positions <+: s'.line_ending_positions := by
  simp only [MappedFile.unicode_at] at h
  split at h
  · simp only [Option.some.injEq, Prod.mk.injEq] at h
    rw [← h.2]
    exact ⟨rfl, List.prefix_rfl⟩
  · split at h
    · split at h
      · next c s2 heq =>
        simp only [Option.some.injEq, Prod.mk.injEq] at h
        rw [← h.2]
        obtain ⟨str, _, _, hs2⟩ := find_nth_in_str_some heq
        rw [hs2]
        exact ⟨rfl, fnGo_extends _ _ _ _ _ _⟩
      · next s2 heq =>
        simp only [Option.some.injEq, Prod.mk.injEq] at h
        rw [← h.2]
        obtain ⟨str, _, _, hs2⟩ := find_nth_in_str_some heq
        rw [hs2]
        exact ⟨rfl, fnGo_extends _ _ _ _ _ _⟩
      · exact absurd h (by simp)
    · simp only [Option.some.injEq, Prod.mk.injEq] at h
      rw [← h.2]
      exact ⟨rfl, List.prefix_rfl⟩

lemma utf8Len_nil : utf8Len [] = 0 := rfl

lemma utf8Len_cons (c : Nat) (l : List Nat) : utf8Len (c :: l) = lenUtf8 c + utf8Len l := rfl

lemma lenUtf8_pos (c : Nat) : 1 ≤ lenUtf8 c := by
  unfold lenUtf8; split_ifs <;> omega

lemma utf8Len_append (l1 l2 : List Nat) : utf8Len (l1 ++ l2) = utf8Len l1 + utf8Len l2 := by
  induction l1 with
  | nil => simp [utf8Len]
  | cons c t ih =>
    rw [List.cons_append, utf8Len_cons, utf8Len_cons, ih]
    omega

/-- Splitting a list at a position where `drop` exposes a head element. -/
lemma take_drop_step {cs : List Nat} {m : Nat} {c : Nat} {rest : List Nat}
    (h : cs.drop m = c :: rest) :
    cs.take (m + 1) = cs.take m ++ [c] ∧ cs.drop (m + 1) = rest ∧ m < cs.length := by
  have hmlt : m < cs.length := by
    by_contra hge
    rw [List.drop_eq_nil_of_le (by omega)] at h
    simp at h
  refine ⟨?_, ?_, hmlt⟩
  · rw [List.take_succ]
    have hg : cs[m]? = some c := by
      have h0 : (cs.drop m)[0]? = some c := by rw [h]; simp
      rw [List.getElem?_drop] at h0
      simpa using h0
    rw [hg]
    rfl
  · have : List.drop 1 (cs.drop m) = cs.drop (m + 1) := List.drop_drop 1 m cs
    rw [← this, h]
    rfl

/-- Membership of the value of `getLast?`. -/
lemma getLast?_mem_self {α : Type} {l : List α} {a : α} (h : l.getLast? = some a) : a ∈ l := by
  have hm : a ∈ l.getLast? := by rw [Option.mem_def]; exact h
  obtain ⟨hne, heq⟩ := List.mem_getLast?_eq_getLast hm
  rw [heq]
  exact List.getLast_mem hne

/-- In a list whose byte offsets form a strictly increasing chain, every
element's byte offset is bounded by that of the last element. -/
lemma chain'_le_getLast :
    ∀ {l : List CharPosition} {z : CharPosition},
      List.Chain' (fun a b => a.byte_position < b.byte_position) l →
      l.getLast? = some z → ∀ cp ∈ l, cp.byte_position ≤ z.byte_position := by
  intro l
  induction l with
  | nil => intro z _ hz; simp at hz
  | cons a t ih =>
    intro z hch hz
    cases t with
    | nil =>
      simp at hz
      subst hz
      intro cp hcp
      simp at hcp
      subst hcp
      exact le_refl _
    | cons b t2 =>
      rw [List.chain'_cons] at hch
      rw [List.getLast?_cons_cons] at hz
      have hall := ih hch.2 hz
      intro cp hcp
      rcases List.mem_cons.mp hcp with rfl | hmem
      · have hb := hall b (List.mem_cons_self _ _)
        omega
      · exact hall cp hmem

/-- If the target enumeration index lies beyond the character list, the
`fnGo` loop never returns a character. -/
lemma fnGo_none {n c0 : Nat} :
    ∀ (tail : List Nat) (j bp : Nat) (acc : List CharPosition),
      j + tail.length ≤ n → (fnGo n c0 tail j bp acc).1 = none := by
  intro tail
  induction tail with
  | nil => intro j bp acc _; rfl
  | cons c rest ih =>
    intro j bp acc h
    simp only [List.length_cons] at h
    simp only [fnGo]
    rw [if_neg (by omega)]
    exact ih (j + 1) _ _ (by omega)

/-- If every checkpoint char index is below the target, the cache search
finds no bracketing window. -/
lemma fwcGo_none (self : MappedFile) (index : Nat) :
    ∀ (l : List CharPosition),
      (∀ cp ∈ l, cp.char_position < index) → fwcGo self index l = none := by
  intro l
  induction l with
  | nil => intro _; rfl
  | cons a t ih =>
    intro hall
    cases t with
    | nil => rfl
    | cons b t2 =>
      have hb : b.char_position < index := hall b (by simp)
      simp only [fwcGo]
      rw [if_neg (by rintro ⟨h1, h2⟩; omega)]
      exact ih (fun cp hcp => hall cp (List.mem_cons_of_mem _ hcp))

/-- The `fnGo` loop preserves checkpoint well-formedness: scanning the
decoded suffix `cs.drop m` from byte offset `utf8Len (cs.take m)` with a
relative enumeration counter dominated by `m`, every checkpoint it appends
is well formed. -/
lemma fnGo_CPinv {cs : List Nat} {n c0 : Nat} :
    ∀ (tail : List Nat) (j bp : Nat) (acc : List CharPosition) (m : Nat),
      cs.drop m = tail → bp = utf8Len (cs.take m) → j + c0 ≤ m →
      (∀ cp ∈ acc, CPinv cs cp) →
      ∀ cp ∈ (fnGo n c0 tail j bp acc).2, CPinv cs cp := by
  intro tail
  induction tail with
  | nil => intro j bp acc m _ _ _ hacc; exact hacc
  | cons c rest ih =>
    intro j bp acc m htail hbp hjc hacc
    obtain ⟨htake, hdrop, hmlt⟩ := take_drop_step htail
    have hbp' : bp + lenUtf8 c = utf8Len (cs.take (m + 1)) := by
      rw [htake, utf8Len_append, hbp, utf8Len_cons, utf8Len_nil]
      omega
    have hacc' : ∀ cp ∈ (if c = 10 then
          acc ++ [{ byte_position := bp + lenUtf8 c, char_position := j + c0 }]
        else acc), CPinv cs cp := by
      split
      · intro cp hcp
        rcases List.mem_append.mp hcp with hcp | hcp
        · exact hacc cp hcp
        · simp only [List.mem_singleton] at hcp
          subst hcp
          exact ⟨m + 1, by omega, hbp', (by omega : j + c0 ≤ m + 1)⟩
      · exact hacc
    simp only [fnGo]
    split
    · exact hacc'
    · exact ih (j + 1) _ _ (m + 1) hdrop hbp' (by omega) hacc'

/-- The `fnGo` loop preserves the byte-offset chain and buffer-length
bound of the checkpoint list: starting from an accumulator whose offsets
are at most the current byte position, with the remaining characters
fitting in the first `L` bytes, the final accumulator is still strictly
increasing and bounded by `L`. -/
lemma fnGo_inv8 {n c0 L : Nat} :
    ∀ (tail : List Nat) (j bp : Nat) (acc : List CharPosition),
      bp + utf8Len tail ≤ L →
      List.Chain' (fun a b => a.byte_position < b.byte_position) acc →
      (∀ cp ∈ acc, cp.byte_position ≤ bp) →
      List.Chain' (fun a b => a.byte_position < b.byte_position) (fnGo n c0 tail j bp acc).2 ∧
      ∀ cp ∈ (fnGo n c0 tail j bp acc).2, cp.byte_position ≤ L := by
  intro tail
  induction tail with
  | nil =>
    intro j bp acc hL hch hbd
    rw [utf8Len_nil] at hL
    exact ⟨hch, fun cp hcp => le_trans (hbd cp hcp) (by omega)⟩
  | cons c rest ih =>
    intro j bp acc hL hch hbd
    have hlc := lenUtf8_pos c
    rw [utf8Len_cons] at hL
    have hL' : (bp + lenUtf8 c) + utf8Len rest ≤ L := by omega
    have hstep :
        List.Chain' (fun a b => a.byte_position < b.byte_position)
          (if c = 10 then
            acc ++ [{ byte_position := bp + lenUtf8 c, char_position := j + c0 }]
          else acc) ∧
        ∀ cp ∈ (if c = 10 then
            acc ++ [{ byte_position := bp + lenUtf8 c, char_position := j + c0 }]
          else acc), cp.byte_position ≤ bp + lenUtf8 c := by
      split
      · constructor
        · rw [List.chain'_append]
          refine ⟨hch, List.chain'_singleton _, ?_⟩
          intro x hx y hy
          simp only [List.head?_cons, Option.mem_def, Option.some.injEq] at hy
          subst hy
          have hxmem := getLast?_mem_self (Option.mem_def.mp hx)
          have := hbd x hxmem
          show x.byte_position < bp + lenUtf8 c
          omega
        · intro cp hcp
          rcases List.mem_append.mp hcp with hcp | hcp
          · exact le_trans (hbd cp hcp) (by omega)
          · simp only [List.mem_singleton] at hcp
            subst hcp
            exact le_refl _
      · exact ⟨hch, fun cp hcp => le_trans (hbd cp hcp) (by omega)⟩
    simp only [fnGo]
    split
    · exact ⟨hstep.1, fun cp hcp => le_trans (hstep.2 cp hcp) (by omega)⟩
    · exact ih (j + 1) _ _ hL' hstep.1 hstep.2

/-- A completed `find_nth_in_str` call from the last checkpoint preserves
the valid-buffer invariant. -/
lemma find_nth_preserves_InvV {bytes cs : List Nat} {s s2 : MappedFile} {n : Nat}
    {current : CharPosition} {res : Option Nat}
    (hdec : utf8From bytes = .ok cs) (hmap : s.map = bytes)
    (hne : s.line_ending_positions ≠ [])
    (hcp : ∀ cp ∈ s.line_ending_positions, CPinv cs cp)
    (hcur : s.line_ending_positions.getLast? = some current)
    (heq : s.find_nth_in_str n current = some (res, s2)) :
    InvV bytes cs s2 := by
  obtain ⟨str, hok, hres, hs2⟩ := find_nth_in_str_some heq
  obtain ⟨k0, hk0, hb0, hc0⟩ := hcp current (getLast?_mem_self hcur)
  have hdrop := utf8From_drop k0 hdec
  rw [hmap, hb0] at hok
  have hstr : str = cs.drop k0 := by
    rw [hok] at hdrop
    injection hdrop
  subst hstr
  have hne2 : (fnGo n current.char_position (cs.drop k0) 0 current.byte_position
      s.line_ending_positions).2 ≠ [] := by
    intro hnil
    have hlen := (fnGo_extends n current.char_position (cs.drop k0) 0
      current.byte_position s.line_ending_positions).length_le
    rw [hnil] at hlen
    simp only [List.length_nil, Nat.le_zero, List.length_eq_zero] at hlen
    exact hne hlen
  rw [hs2]
  exact ⟨hmap, hne2, fnGo_CPinv (cs.drop k0) 0 current.byte_position s.line_ending_positions k0
    rfl hb0 (by omega) hcp⟩

/-- A completed `unicode_at` call preserves the valid-buffer invariant. -/
lemma unicode_at_InvV {bytes cs : List Nat} {s s2 : MappedFile} {i : Nat}
    {r : Except IndexError Nat}
    (hdec : utf8From bytes = .ok cs)
    (hinv : InvV bytes cs s) (h : s.unicode_at i = some (r, s2)) : InvV bytes cs s2 := by
  obtain ⟨hmap, hne, hcp⟩ := hinv
  simp only [MappedFile.unicode_at] at h
  split at h
  · simp only [Option.some.injEq, Prod.mk.injEq] at h
    rw [← h.2]
    exact ⟨hmap, hne, hcp⟩
  · split at h
    · next current hcur =>
      split at h
      · next c s3 heq =>
        simp only [Option.some.injEq, Prod.mk.injEq] at h
        rw [← h.2]
        exact find_nth_preserves_InvV hdec hmap hne hcp hcur heq
      · next s3 heq =>
        simp only [Option.some.injEq, Prod.mk.injEq] at h
        rw [← h.2]
        exact find_nth_preserves_InvV hdec hmap hne hcp hcur heq
      · exact absurd h (by simp)
    · simp only [Option.some.injEq, Prod.mk.injEq] at h
      rw [← h.2]
      exact ⟨hmap, hne, hcp⟩

/-- Every reachable state over a valid buffer satisfies the valid-buffer
invariant. -/
lemma reachable_InvV {bytes cs : List Nat} (hdec : utf8From bytes = .ok cs) :
    ∀ {s : MappedFile}, Reachable bytes s → InvV bytes cs s := by
  intro s hr
  induction hr with
  | init =>
    refine ⟨rfl, by simp [MappedFile.new], ?_⟩
    intro cp hcp
    simp only [MappedFile.new, List.mem_singleton] at hcp
    subst hcp
    exact ⟨0, by omega, rfl, Nat.le_refl 0⟩
  | step hprev hstep ih => exact unicode_at_InvV hdec ih hstep

/-- A completed `find_nth_in_str` call from the last checkpoint preserves
the byte-offset invariant, over an arbitrary buffer. -/
lemma find_nth_preserves_Inv8 {bytes : List Nat} {s s2 : MappedFile} {n : Nat}
    {current : CharPosition} {res : Option Nat}
    (hmap : s.map = bytes)
    (hne : s.line_ending_positions ≠ [])
    (hch : List.Chain' (fun a b => a.byte_position < b.byte_position) s.line_ending_positions)
    (hbd : ∀ cp ∈ s.line_ending_positions, cp.byte_position ≤ bytes.length)
    (hcur : s.line_ending_positions.getLast? = some current)
    (heq : s.find_nth_in_str n current = some (res, s2)) :
    Inv8 bytes s2 := by
  obtain ⟨str, hok, hres, hs2⟩ := find_nth_in_str_some heq
  rw [hmap] at hok
  have hb0 : current.byte_position ≤ bytes.length := hbd current (getLast?_mem_self hcur)
  have hlen : utf8Len str = bytes.length - current.byte_position := by
    have := utf8From_length hok
    rwa [List.length_drop] at this
  have hgo := @fnGo_inv8 n current.char_position bytes.length str 0
    current.byte_position s.line_ending_positions (by omega) hch
    (chain'_le_getLast hch hcur)
  have hne2 : (fnGo n current.char_position str 0 current.byte_position
      s.line_ending_positions).2 ≠ [] := by
    intro hnil
    have hlen2 := (fnGo_extends n current.char_position str 0
      current.byte_position s.line_ending_positions).length_le
    rw [hnil] at hlen2
    simp only [List.length_nil, Nat.le_zero, List.length_eq_zero] at hlen2
    exact hne hlen2
  rw [hs2]
  exact ⟨hmap, hne2, hgo.1, hgo.2⟩

/-- A completed `unicode_at` call preserves the byte-offset invariant. -/
lemma unicode_at_Inv8 {bytes : List Nat} {s s2 : MappedFile} {i : Nat}
    {r : Except IndexError Nat}
    (hinv : Inv8 bytes s) (h : s.unicode_at i = some (r, s2)) : Inv8 bytes s2 := by
  obtain ⟨hmap, hne, hch, hbd⟩ := hinv
  simp only [MappedFile.unicode_at] at h
  split at h
  · simp only [Option.some.injEq, Prod.mk.injEq] at h
    rw [← h.2]
    exact ⟨hmap, hne, hch, hbd⟩
  · split at h
    · next current hcur =>
      split at h
      · next c s3 heq =>
        simp only [Option.some.injEq, Prod.mk.injEq] at h
        rw [← h.2]
        exact find_nth_preserves_Inv8 hmap hne hch hbd hcur heq
      · next s3 heq =>
        simp only [Option.some.injEq, Prod.mk.injEq] at h
        rw [← h.2]
        exact find_nth_preserves_Inv8 hmap hne hch hbd hcur heq
      · exact absurd h (by simp)
    · simp only [Option.some.injEq, Prod.mk.injEq] at h
      rw [← h.2]
      exact ⟨hmap, hne, hch, hbd⟩

/-- Every reachable state satisfies the byte-offset invariant. -/
lemma reachable_Inv8 {bytes : List Nat} :
    ∀ {s : MappedFile}, Reachable bytes s → Inv8 bytes s := by
  intro s hr
  induction hr with
  | init =>
    refine ⟨rfl, by simp [MappedFile.new], ?_, ?_⟩
    · exact List.chain'_singleton _
    · intro cp hcp
      simp only [MappedFile.new, List.mem_singleton] at hcp
      subst hcp
      exact Nat.zero_le _
  | step hprev hstep ih => exact unicode_at_Inv8 ih hstep

/-! ## Claim theorems (part 1) -/

/-- Claim C1 (code bug): on the two-character buffer "ab", a full decode
yields character 97 at index 0, but `unicode_at 0` on the fresh structure
returns `Ok 98` — the character at index 1.  The 1-based target
`index + 1` is compared against 0-based `enumerate`/`nth` counters, so
the query is off by one; the repository's own test asserts the behaviour
the claim states, and it fails. -/
theorem unicode_at_misses_first_character :
    utf8From [97, 98] = .ok [97, 98] ∧
    Prod.fst <$> (MappedFile.new [97, 98]).unicode_at 0 = some (.ok 98) ∧
    Prod.fst <$> (MappedFile.new [97, 98]).unicode_at 0 ≠ some (.ok 97) := by
  decide

/-- Claim C2 (code bug): on the buffer of tests/read.rs
("Hello\nworld!\n" as byte values), the very first assertion of
`test_helloworld` already fails: `unicode_at 0` returns `Ok 101` ('e'),
not `Ok 72` ('H'). -/
theorem helloworld_test_divergence :
    Prod.fst <$> (MappedFile.new helloBytes).unicode_at 0 = some (.ok 101) ∧
    Prod.fst <$> (MappedFile.new helloBytes).unicode_at 0 ≠ some (.ok 72) := by
  decide

/-- Claim C3 (code bug): `unicode_at` is not idempotent.  On the buffer
"a\nb\nc\n" the first call `unicode_at 2` answers `Ok 10` (a line feed)
through the cache-extension path and records the off-by-one checkpoints
(2,1) and (4,3); the immediately repeated identical call is then answered
differently (`Ok 99`, the letter 'c'), because the bracketed line lookup
runs out of characters, the error is swallowed, and a second extension
scan starts from the last checkpoint. -/
theorem repeated_query_divergence :
    (MappedFile.new [97, 10, 98, 10, 99, 10]).unicode_at 2 =
      some (.ok 10, ⟨[97, 10, 98, 10, 99, 10], [⟨0, 0⟩, ⟨2, 1⟩, ⟨4, 3⟩]⟩) ∧
    (MappedFile.mk [97, 10, 98, 10, 99, 10] [⟨0, 0⟩, ⟨2, 1⟩, ⟨4, 3⟩]).unicode_at 2 =
      some (.ok 99, ⟨[97, 10, 98, 10, 99, 10], [⟨0, 0⟩, ⟨2, 1⟩, ⟨4, 3⟩]⟩) ∧
    (Except.ok (ε := IndexError) 10 : Except IndexError Nat) ≠ .ok 99 := by
  decide

/-- Claim C4 (code bug): decoding failures are not surfaced as
`InvalidChar`.  On the one-byte invalid buffer [255], the fresh query
`unicode_at 0` takes the extension path, whose `from_utf8(...).unwrap()`
panics (modelled as `none`) instead of returning `Err(InvalidChar)`.  On
the cache-search path, `get_unicode_char_in_line` does construct
`InvalidChar`, but `find_with_cache` maps it to `None`, silently falling
through to the extension path. -/
theorem invalid_utf8_divergence :
    (MappedFile.new [255]).unicode_at 0 = none ∧
    (MappedFile.mk [255, 10] [⟨0, 0⟩, ⟨2, 1⟩]).get_unicode_char_in_line 0 1 2 =
      .error (.InvalidChar 0) ∧
    (MappedFile.mk [255, 10] [⟨0, 0⟩, ⟨2, 1⟩]).find_with_cache 1 = none := by
  decide

/-- Claim C5 (code bug): the checkpoint-list invariant is violated.  On
the buffer "a\n\nb", after `unicode_at 0` the cache is
[(0,0), (2,1)], and `unicode_at 2` then appends (3,1): the adjacent pair
(2,1),(3,1) has equal `char_position`, not strictly increasing; moreover
checkpoint (2,1) does not record where character 1 begins — character 1
of the decoded buffer starts at byte 1 (`utf8Len` of the first character),
not byte 2.  Checkpoints actually store the byte offset after a line feed
paired with a drifting char counter, not the position of character
`char_position`. -/
theorem checkpoint_invariant_divergence :
    (MappedFile.new [97, 10, 10, 98]).unicode_at 0 =
      some (.ok 10, ⟨[97, 10, 10, 98], [⟨0, 0⟩, ⟨2, 1⟩]⟩) ∧
    (MappedFile.mk [97, 10, 10, 98] [⟨0, 0⟩, ⟨2, 1⟩]).unicode_at 2 =
      some (.error .OutOfBounds, ⟨[97, 10, 10, 98], [⟨0, 0⟩, ⟨2, 1⟩, ⟨3, 1⟩]⟩) ∧
    ¬ List.Chain' (fun a b => a.char_position < b.char_position)
        [(⟨0, 0⟩ : CharPosition), ⟨2, 1⟩, ⟨3, 1⟩] ∧
    utf8From [97, 10, 10, 98] = .ok [97, 10, 10, 98] ∧
    utf8Len (([97, 10, 10, 98] : List Nat).take 1) ≠ 2 := by
  refine ⟨by decide, by decide, ?_, by decide, by decide⟩
  intro hch
  rw [List.chain'_cons, List.chain'_cons] at hch
  exact absurd hch.2.1 (by decide)

/-- Claim C7 (confirmed): every completed `unicode_at` call, whether it
returns `Ok` or an error, leaves the previous checkpoint list as a prefix
of the new one — entries are never removed or reordered, and checkpoints
appended before an `OutOfBounds` result are retained. -/
theorem unicode_at_checkpoints_monotone (s : MappedFile) (i : Nat)
    (r : Except IndexError Nat) (s' : MappedFile)
    (h : s.unicode_at i = some (r, s')) :
    s.line_ending_positions <+: s'.line_ending_positions :=
  (unicode_at_state h).2

/-- Witness for C7: a call that grows the cache (query 0 on the buffer
"a\n" appends checkpoint (2,1)) keeps the old list as a prefix. -/
theorem unicode_at_checkpoints_monotone_witness :
    (MappedFile.new [97, 10]).line_ending_positions <+:
      (MappedFile.mk [97, 10] [⟨0, 0⟩, ⟨2, 1⟩]).line_ending_positions :=
  unicode_at_checkpoints_monotone (MappedFile.new [97, 10]) 0 (.ok 10)
    (MappedFile.mk [97, 10] [⟨0, 0⟩, ⟨2, 1⟩]) (by decide)

/-- Claim C9 (confirmed): when the cache search answers the query, the
call returns that character and leaves the structure completely
unchanged; and no completed call ever modifies the mapped buffer. -/
theorem cache_hit_frame :
    (∀ (s : MappedFile) (i c : Nat),
        s.find_with_cache (wrapAdd i 1) = some c →
          s.unicode_at i = some (.ok c, s)) ∧
    (∀ (s : MappedFile) (i : Nat) (r : Except IndexError Nat) (s' : MappedFile),
        s.unicode_at i = some (r, s') → s'.map = s.map) := by
  constructor
  · intro s i c h
    simp only [MappedFile.unicode_at, h]
  · intro s i r s' h
    exact (unicode_at_state h).1

/-- Witness for C9: on the state with buffer "a\n" and cache
[(0,0), (2,1)], query 0 is served by the cache and the state is returned
unchanged; the buffer is unchanged as well. -/
theorem cache_hit_frame_witness :
    (MappedFile.mk [97, 10] [⟨0, 0⟩, ⟨2, 1⟩]).unicode_at 0 =
      some (.ok 10, MappedFile.mk [97, 10] [⟨0, 0⟩, ⟨2, 1⟩]) ∧
    (MappedFile.mk [97, 10] [⟨0, 0⟩, ⟨2, 1⟩]).map = [97, 10] :=
  ⟨cache_hit_frame.1 _ 0 10 (by decide),
   cache_hit_frame.2 _ 0 _ _ (cache_hit_frame.1 _ 0 10 (by decide))⟩

/-- Claim C10 (confirmed): for `index = usize::MAX` the 1-based target
`index + 1` wraps to 0 modulo `2 ^ 64`; no checkpoint pair brackets
target 0, so on a freshly constructed structure over any nonempty
valid-UTF-8 buffer the extension path runs with `n = 0` and returns the
buffer's first character instead of `OutOfBounds`. -/
theorem usize_max_wraparound (bytes : List Nat) (c : Nat) (cs : List Nat)
    (h : utf8From bytes = .ok (c :: cs)) :
    Prod.fst <$> (MappedFile.new bytes).unicode_at (2 ^ 64 - 1) = some (.ok c) := by
  have hwrap : wrapAdd (2 ^ 64 - 1) 1 = 0 := by
    simp only [wrapAdd, USIZE]
    omega
  simp only [MappedFile.unicode_at, hwrap, MappedFile.new, MappedFile.find_with_cache, fwcGo,
    List.getLast?, List.getLast, MappedFile.find_nth_in_str, List.drop_zero, wrapSub]
  rw [h]
  simp [fnGo]

/-- Witness for C10: the singleton buffer "a" decodes to the single
character 97, and the query at `usize::MAX` returns it. -/
theorem usize_max_wraparound_witness :
    utf8From [97] = .ok (97 :: []) ∧
    Prod.fst <$> (MappedFile.new [97]).unicode_at (2 ^ 64 - 1) = some (.ok 97) :=
  ⟨by decide, usize_max_wraparound [97] 97 [] (by decide)⟩


/-! ## Claim theorems (part 2) -/

/-- Claim C8 (confirmed): in every state reachable from construction by
completed `unicode_at` calls, over an arbitrary byte buffer, every
recorded checkpoint byte offset is at most the buffer length and the
byte offsets are strictly increasing along the list; hence the slice
`&self.map[start.byte_position..]` of the extension path and the slice
`&self.map[byte_position..next_line_byte_position]` of the cache path
(taken at an adjacent checkpoint pair) always have in-bounds, ordered
indices. -/
theorem reachable_slice_indices_in_bounds (bytes : List Nat) (s : MappedFile)
    (hr : Reachable bytes s) :
    (∀ cp ∈ s.line_ending_positions, cp.byte_position ≤ bytes.length) ∧
    List.Chain' (fun a b => a.byte_position < b.byte_position) s.line_ending_positions := by
  obtain ⟨hmap, hne, hch, hbd⟩ := reachable_Inv8 hr
  exact ⟨hbd, hch⟩

/-- Witness for C8: the state reached from the buffer "a\n" after the
call `unicode_at 0` (which appends checkpoint (2,1)) has its checkpoint
byte offsets bounded by the buffer length and strictly increasing. -/
theorem reachable_slice_indices_in_bounds_witness :
    (∀ cp ∈ (MappedFile.mk [97, 10] [⟨0, 0⟩, ⟨2, 1⟩]).line_ending_positions,
        cp.byte_position ≤ ([97, 10] : List Nat).length) ∧
    List.Chain' (fun a b => a.byte_position < b.byte_position)
      (MappedFile.mk [97, 10] [⟨0, 0⟩, ⟨2, 1⟩]).line_ending_positions :=
  reachable_slice_indices_in_bounds [97, 10] _
    (@Reachable.step [97, 10] (MappedFile.new [97, 10]) 0 (.ok 10)
      (MappedFile.mk [97, 10] [⟨0, 0⟩, ⟨2, 1⟩]) Reachable.init (by decide))

/-- Counterexample to claim C6 as stated: the claim quantifies over every
index `i ≥ total_char_count`, but at `i = usize::MAX` (namely
`2 ^ 64 - 1 ≥ 1`, the character count of the one-character buffer "h")
the fresh structure answers `Ok 104`, not `OutOfBounds`, because the
1-based target computation wraps around (see C10). -/
theorem out_of_bounds_counterexample :
    Prod.fst <$> (MappedFile.new [104]).unicode_at (2 ^ 64 - 1) = some (.ok 104) ∧
    Prod.fst <$> (MappedFile.new [104]).unicode_at (2 ^ 64 - 1) ≠
      some (.error .OutOfBounds) := by
  decide

/-- Claim C6 as amended: for every valid-UTF-8 buffer, in every reachable
state, every index `i` that is at least the total character count and
below `usize::MAX` is answered with `Err(OutOfBounds)`; this covers in
particular `unicode_at 0` on the empty buffer.  (At `i = usize::MAX`
itself the target computation overflows and the call can return `Ok`;
see C10.) -/
theorem unicode_at_out_of_bounds_amended (bytes cs : List Nat) (s : MappedFile) (i : Nat)
    (hdec : utf8From bytes = .ok cs) (hr : Reachable bytes s)
    (hi : cs.length ≤ i) (hlt : i < USIZE - 1) :
    Prod.fst <$> s.unicode_at i = some (.error .OutOfBounds) := by
  obtain ⟨hmap, hne, hcp⟩ := reachable_InvV hdec hr
  have hidx : wrapAdd i 1 = i + 1 := by
    simp only [wrapAdd, USIZE] at *
    omega
  have hallc : ∀ cp ∈ s.line_ending_positions, cp.char_position < i + 1 := by
    intro cp hmem
    obtain ⟨k, hk, _, hc⟩ := hcp cp hmem
    omega
  have hfwc : s.find_with_cache (i + 1) = none := fwcGo_none s (i + 1) _ hallc
  obtain ⟨current, hcur⟩ : ∃ z, s.line_ending_positions.getLast? = some z := by
    cases hq : s.line_ending_positions.getLast? with
    | none => exact absurd (List.getLast?_eq_none_iff.mp hq) hne
    | some z => exact ⟨z, rfl⟩
  obtain ⟨k0, hk0, hb0, hc0⟩ := hcp current (getLast?_mem_self hcur)
  have hsub : wrapSub (i + 1) current.char_position = i + 1 - current.char_position := by
    rw [wrapSub, if_pos (by omega)]
  have hok : utf8From (s.map.drop current.byte_position) = .ok (cs.drop k0) := by
    rw [hmap, hb0]
    exact utf8From_drop k0 hdec
  have hnone : (fnGo (i + 1 - current.char_position) current.char_position (cs.drop k0) 0
      current.byte_position s.line_ending_positions).1 = none := by
    apply fnGo_none
    rw [List.length_drop]
    omega
  simp only [MappedFile.unicode_at, hidx, hfwc, hcur, hsub, MappedFile.find_nth_in_str, hok]
  rw [hnone]
  rfl

/-- Witness for the amended C6: the one-character buffer "a" decodes to
one character, the fresh structure is reachable, and the out-of-range
query 1 answers `OutOfBounds`. -/
theorem unicode_at_out_of_bounds_amended_witness :
    utf8From [97] = .ok [97] ∧ ([97] : List Nat).length ≤ 1 ∧ 1 < USIZE - 1 ∧
    Prod.fst <$> (MappedFile.new [97]).unicode_at 1 = some (.error .OutOfBounds) :=
  ⟨by decide, by decide, by decide,
   unicode_at_out_of_bounds_amended [97] [97] (MappedFile.new [97]) 1 (by decide)
     Reachable.init (by decide) (by decide)⟩
